import Mathlib

/-!
Shallow embedding of the vicuno music-library core (src/lib.rs): codec
classification (`Codec::from_path`), FLAC tag extraction into `Track`
(`Track::from_file` / `Track::from_flac`), `Album` aggregation
(`Album::from_path`, `Album::genres`) and `Library` aggregation
(`Library::from_dir`, `Library::keys`, `Library::albums`).

File-system effects are externalised as explicit inputs: a file is given
together with the outcome of `metaflac::Tag::read_from_path` on it (a format
error, "no vorbis comment block", or the comment block as a mapping from tag
name to its list of values), and a directory walk is given as the list of
visited entries.  Paths are strings; Rust's byte-lexicographic `str` order is
modelled by codepoint-lexicographic order on `List Char`, which orders UTF-8
encoded strings identically.
-/

namespace Vicuno

/-- The closed set of recognised audio container kinds (`enum Codec`). -/
inductive Codec
  | FLAC
  | OPUS
  | M4A
  | MP3
deriving DecidableEq

/-- Opaque stand-in for `metaflac::Error`: the embedding never inspects it,
only wraps it. -/
structure MetaflacError where
  msg : String
deriving DecidableEq

/-- `enum LibraryError`: the three error kinds of the crate. -/
inductive LibraryError
  | UnsupportedCodec (codec : Codec)
  | InvalidFormat (path : String)
  | InvalidFlac (err : MetaflacError)
deriving DecidableEq

/-- Split a character list at every occurrence of `sep`; the separators are
dropped and empty segments are kept, as with splitting a path on `/`. -/
def splitOnChar (sep : Char) : List Char → List (List Char)
  | [] => [[]]
  | c :: cs =>
    match splitOnChar sep cs with
    | [] => [[c]]
    | h :: t => if c = sep then [] :: h :: t else (c :: h) :: t

/-- The characters of `Path::file_name`: the last `/`-separated component of
the path.  (Rust's special cases `.` and `..`, where `file_name` is `None`,
are not distinguished; they have no extension either way, so
`Codec.from_path` agrees on them.) -/
def fileNameChars (p : String) : List Char :=
  (splitOnChar '/' p.data).getLastD []

/-- `Path::extension` on the file name: the part after the last `.`, except
that a file name without a `.`, or consisting of a single leading `.`
followed by no further `.`, has no extension. -/
def extOf (p : String) : Option (List Char) :=
  match splitOnChar '.' (fileNameChars p) with
  | [] => none
  | [_] => none
  | [h, e] => if h = [] then none else some e
  | parts => some (parts.getLastD [])

/-- `str::to_lowercase` on the extension, modelled by the per-character ASCII
lowercase map (they agree on every ASCII extension; the lookup table below
only contains ASCII entries). -/
def lowerChars (cs : List Char) : List Char :=
  cs.map Char.toLower

/-- `Codec::from_path`: classify a path by its lower-cased extension against
the fixed table; anything else yields no codec. -/
def Codec.from_path (p : String) : Option Codec :=
  ((extOf p).map lowerChars).bind fun s =>
    if s = "flac".data then some Codec.FLAC
    else if s = "opus".data then some Codec.OPUS
    else if s = "m4a".data then some Codec.M4A
    else if s = "aac".data then some Codec.M4A
    else if s = "mp3".data then some Codec.MP3
    else none

/-- A vorbis comment block: the mapping from tag name to the stored list of
values (`metaflac`'s `HashMap<String, Vec<String>>`), as an association
list.  Each stored value list holds at least one value; theorems that read a
first value carry this wellformedness as a hypothesis. -/
abbrev Comments := List (String × List String)

/-- `HashMap::get` on an association list. -/
def alookup {α : Type} : List (String × α) → String → Option α
  | [], _ => none
  | e :: rest, k => if e.1 = k then some e.2 else alookup rest k

/-- `str::parse::<usize>`: an optional leading `+`, then one or more ASCII
digits, with the value below `2 ^ 64` (usize on a 64-bit target); anything
else — empty string, other characters, overflow — is a parse error. -/
def parseUsize (s : String) : Option Nat :=
  let ds := match s.data with
    | '+' :: rest => rest
    | cs => cs
  if ds = [] then none
  else if ds.all Char.isDigit then
    let n := ds.foldl (fun acc c => acc * 10 + (c.toNat - 48)) 0
    if n < 2 ^ 64 then some n else none
  else none

/-- The `Track` record of src/lib.rs, field for field. -/
structure Track where
  file : Option String
  file_codec : Option Codec
  title : Option String
  album : Option String
  artist : List String
  album_artist : Option String
  composer : List String
  track_number : Option Nat
  track_total : Option Nat
  disc_number : Option Nat
  disc_total : Option Nat
  date : Option Nat
  www : Option String
  genre : List String
  copyright : Option String
  encoded_by : Option String
  comment : Option String
  modified : Bool
  discarded : List String
deriving DecidableEq

/-- `Track::new`: the empty in-memory track. -/
def Track.new : Track where
  file := none
  file_codec := none
  title := none
  album := none
  artist := []
  album_artist := none
  composer := []
  track_number := none
  track_total := none
  disc_number := none
  disc_total := none
  date := none
  www := none
  genre := []
  copyright := none
  encoded_by := none
  comment := none
  modified := false
  discarded := []

/-- The closure `get_str` of `Track::from_flac`: first stored value of a
single-valued tag.  `xs[0]` panics on an empty value list; metaflac value
lists always hold at least one value, so the `headD ""` default is never
reached under the wellformedness hypothesis the theorems carry.  The side
effect on `discarded` is accounted separately by `discardedOf`. -/
def getStr (c : Comments) (key : String) : Option String :=
  (alookup c key).map fun xs => xs.headD ""

/-- The closure `get_strs`: all stored values of a multi-valued tag, or the
empty list when the tag is absent. -/
def getStrs (c : Comments) (key : String) : List String :=
  (alookup c key).getD []

/-- The closure `get_num`: the single-valued string parsed as `usize`. -/
def getNum (c : Comments) (key : String) : Option Nat :=
  (getStr c key).bind fun x => parseUsize x

/-- The single-valued tag names, in the order `Track::from_flac` evaluates
`get_str` on them while building the struct literal. -/
def singleValuedKeys : List String :=
  ["TITLE", "ALBUM", "ALBUMARTIST", "TRACKNUMBER", "TRACKTOTAL",
   "DISCNUMBER", "DISCTOTAL", "DATE", "CONTACT", "COPYRIGHT",
   "ENCODED-BY", "DESCRIPTION"]

/-- The `discarded` list accumulated through the `RefCell` in
`Track::from_flac`: `get_str` pushes its key exactly when the stored value
list holds more than one value, so the accumulated list is the filter of the
keys in evaluation order. -/
def discardedOf (c : Comments) : List String :=
  singleValuedKeys.filter fun k =>
    match alookup c k with
    | some xs => decide (1 < xs.length)
    | none => false

/-- The struct literal built by `Track::from_flac` when the comment block is
present, field for field in source order. -/
def Track.of_comments (path : String) (comments : Comments) : Track :=
  { file := some path
    file_codec := some Codec.FLAC
    title := getStr comments "TITLE"
    album := getStr comments "ALBUM"
    artist := getStrs comments "ARTIST"
    album_artist := getStr comments "ALBUMARTIST"
    composer := getStrs comments "COMPOSER"
    track_number := getNum comments "TRACKNUMBER"
    track_total := getNum comments "TRACKTOTAL"
    disc_number := getNum comments "DISCNUMBER"
    disc_total := getNum comments "DISCTOTAL"
    date := getNum comments "DATE"
    www := getStr comments "CONTACT"
    genre := getStrs comments "GENRE"
    copyright := getStr comments "COPYRIGHT"
    encoded_by := getStr comments "ENCODED-BY"
    comment := getStr comments "DESCRIPTION"
    modified := false
    discarded := discardedOf comments }

/-- `Track::from_flac`, with the outcome of `Tag::read_from_path` passed in:
a read error is wrapped as `InvalidFlac` (the `?` operator and the `From`
impl), a missing comment block yields `Track::new`, and a present block is
mapped onto the fields tag by tag. -/
def Track.from_flac (path : String) (read : Except MetaflacError (Option Comments)) :
    Except LibraryError Track :=
  match read with
  | .error e => .error (.InvalidFlac e)
  | .ok none => .ok Track.new
  | .ok (some comments) => .ok (Track.of_comments path comments)

/-- `Track::from_file`: classify, then dispatch — only FLAC has an
extraction routine. -/
def Track.from_file (path : String) (read : Except MetaflacError (Option Comments)) :
    Except LibraryError Track :=
  match Codec.from_path path with
  | some Codec.FLAC => Track.from_flac path read
  | some codec => .error (.UnsupportedCodec codec)
  | none => .error (.InvalidFormat path)

/-- `Track::is_empty`: every optional field unset and every multi-valued
field empty; `modified`, `discarded` and the identity fields are not
consulted. -/
def Track.is_empty (t : Track) : Bool :=
  t.title.isNone && t.album.isNone && t.artist.isEmpty && t.album_artist.isNone
    && t.composer.isEmpty && t.track_number.isNone && t.track_total.isNone
    && t.disc_number.isNone && t.disc_total.isNone && t.date.isNone
    && t.www.isNone && t.genre.isEmpty && t.copyright.isNone
    && t.encoded_by.isNone && t.comment.isNone

/-- `Track::is_modified`. -/
def Track.is_modified (t : Track) : Bool :=
  t.modified

/-- `Track::genres` accessor. -/
def Track.genresOf (t : Track) : List String :=
  t.genre

/-- Byte-lexicographic order on UTF-8 strings, as `Ord` on Rust `str`
compares them, via the codepoint lists (UTF-8 encoding preserves codepoint
order, so the two orders agree). -/
def lexLe : List Char → List Char → Bool
  | [], _ => true
  | _ :: _, [] => false
  | a :: as, b :: bs =>
    if a.toNat < b.toNat then true
    else if b.toNat < a.toNat then false
    else lexLe as bs

/-- The order used by `sort` / `sorted` on strings in the source. -/
def strLe (a b : String) : Prop :=
  lexLe a.data b.data = true

instance : DecidableRel strLe := fun a b =>
  inferInstanceAs (Decidable (lexLe a.data b.data = true))

deriving instance DecidableEq for Except

/-- A directory entry that is a regular file, together with the outcome of
reading its FLAC tag block (consulted only when the file classifies as
FLAC).  Subdirectories are skipped by `Album::from_path` and so are not
modelled as entries. -/
structure FileEntry where
  name : String
  read : Except MetaflacError (Option Comments)
deriving DecidableEq

/-- The `Album` record: directory path and ordered tracks. -/
structure Album where
  dir : String
  tracks : List Track
deriving DecidableEq

/-- `Album::new`. -/
def Album.new (path : String) : Album :=
  { dir := path, tracks := [] }

/-- `Album::add_track`: extract and append, propagating extraction errors. -/
def Album.add_track (a : Album) (path : String)
    (read : Except MetaflacError (Option Comments)) : Except LibraryError Album :=
  (Track.from_file path read).map fun t => { a with tracks := a.tracks ++ [t] }

/-- File-name order on directory entries (`WalkDir::sort_by_file_name`). -/
def fileLe (x y : FileEntry) : Prop :=
  strLe x.name y.name

instance : DecidableRel fileLe := fun x y =>
  inferInstanceAs (Decidable (strLe x.name y.name))

/-- `Album::from_path` over the directory's file entries: walk them in
file-name order, skip entries that classify as no codec, extract the rest,
failing on the first extraction error. -/
def Album.from_path (dir : String) (files : List FileEntry) :
    Except LibraryError Album :=
  (List.insertionSort fileLe files).foldlM
    (fun a f =>
      if (Codec.from_path (dir ++ "/" ++ f.name)).isSome then
        a.add_track (dir ++ "/" ++ f.name) f.read
      else
        pure a)
    (Album.new dir)

/-- `Album::len`. -/
def Album.len (a : Album) : Nat :=
  a.tracks.length

/-- `Album::genres`: the genre lists of all tracks, collected into a
`HashSet` and drained `sorted()` — i.e. the unique sorted duplicate-free
list carrying the union of the genres, here as sort-of-dedup. -/
def Album.genres (a : Album) : List String :=
  List.insertionSort strLe ((a.tracks.flatMap Track.genresOf).dedup)

/-- The `Library` record: root and the album map (`HashMap` as an
association list; its order is never exposed, see `Library.keys`). -/
structure Library where
  root : String
  albums : List (String × Album)
deriving DecidableEq

/-- `Library::new`. -/
def Library.new (path : String) : Library :=
  { root := path, albums := [] }

/-- `str::strip_prefix` on codepoint lists. -/
def stripPrefixL {α : Type} [DecidableEq α] : List α → List α → Option (List α)
  | [], s => some s
  | _ :: _, [] => none
  | p :: ps, c :: cs => if p = c then stripPrefixL ps cs else none

/-- `Library::key_relative` as a function of the root: the root itself maps
to `"."`, any other path is stripped of `root ++ "/"`; the `expect` panic on
a path outside the root is modelled as `none`. -/
def keyRel (root p : String) : Option String :=
  if p = root then some "."
  else (stripPrefixL (root ++ "/").data p.data).map fun cs => String.mk cs

/-- `Library::key_relative` (method form). -/
def Library.key_relative (lib : Library) (key : String) : Option String :=
  keyRel lib.root key

/-- `HashMap::insert`: replace the binding of an existing key, else add. -/
def insertAssoc (m : List (String × Album)) (k : String) (v : Album) :
    List (String × Album) :=
  if k ∈ m.map Prod.fst then
    m.map fun e => if e.1 = k then (k, v) else e
  else m ++ [(k, v)]

/-- The loop of `Library::from_dir` over the walked directories: a failed
album scan is only logged (`error!`) and skipped, a successful scan is
inserted when it yielded at least one track.  `none` models the
`key_relative` panic for a directory outside the root. -/
def fromDirGo (root : String) (acc : List (String × Album)) :
    List (String × List FileEntry) → Option (List (String × Album))
  | [] => some acc
  | (p, fs) :: rest =>
    match keyRel root p with
    | none => none
    | some key =>
      match Album.from_path p fs with
      | .ok album =>
          fromDirGo root (if 0 < album.len then insertAssoc acc key album else acc) rest
      | .error _ => fromDirGo root acc rest

/-- `Library::from_dir`, with the recursive directory walk passed in as the
list of visited directories (each with its file entries) in walk order.
The Rust loop body never returns early, so the result is always `Ok`. -/
def Library.from_dir (root : String) (dirs : List (String × List FileEntry)) :
    Option (Except LibraryError Library) :=
  (fromDirGo root [] dirs).map fun m => .ok { root := root, albums := m }

/-- `Library::collection`. -/
def Library.collection (lib : Library) : List (String × Album) :=
  lib.albums

/-- `Library::keys`: collect the map's keys and sort them. -/
def Library.keys (lib : Library) : List String :=
  List.insertionSort strLe (lib.albums.map Prod.fst)

/-- `Library::albums` (named `albumsOrdered` here, the struct field keeping
the source's field name): the albums indexed by the sorted keys. -/
def Library.albumsOrdered (lib : Library) : List Album :=
  lib.keys.filterMap fun k => alookup lib.albums k

/-- The single-valued extraction contract for one string tag: the field holds
the first stored value, and the tag name is in `discarded` exactly when more
than one value was stored; an absent tag leaves the field unset and is never
discarded. -/
def SingleTagOk (c : Comments) (name : String) (field : Option String)
    (disc : List String) : Prop :=
  (∀ v vs, alookup c name = some (v :: vs) →
    field = some v ∧ (name ∈ disc ↔ vs ≠ [])) ∧
  (alookup c name = none → field = none ∧ name ∉ disc)

/-- The single-valued extraction contract for one numeric tag: the field
holds the first stored value parsed as `usize`, with the same `discarded`
policy as the string tags. -/
def NumTagOk (c : Comments) (name : String) (field : Option Nat)
    (disc : List String) : Prop :=
  (∀ v vs, alookup c name = some (v :: vs) →
    field = parseUsize v ∧ (name ∈ disc ↔ vs ≠ [])) ∧
  (alookup c name = none → field = none ∧ name ∉ disc)

/-- The multi-valued extraction contract for one tag: the field holds all
stored values in stored order (empty when absent), and the tag name never
enters `discarded`. -/
def MultiTagOk (c : Comments) (name : String) (field : List String)
    (disc : List String) : Prop :=
  (∀ vs, alookup c name = some vs → field = vs) ∧
  (alookup c name = none → field = []) ∧
  name ∉ disc

/-! Order theory for the string order used by the sorts in the source. -/

theorem char_eq_of_toNat_eq {a b : Char} (h : a.toNat = b.toNat) : a = b := by
  apply Char.eq_of_val_eq
  apply UInt32.toNat.inj
  exact h

theorem lexLe_cons {a b : Char} {as bs : List Char} :
    lexLe (a :: as) (b :: bs) = true ↔
      a.toNat < b.toNat ∨ (a.toNat = b.toNat ∧ lexLe as bs = true) := by
  simp only [lexLe]
  split
  · next h => simp [h]
  · next h =>
    split
    · next h2 =>
      have hne : a.toNat ≠ b.toNat := by omega
      simp [h, hne]
    · next h2 =>
      have heq : a.toNat = b.toNat := by omega
      simp [heq]

theorem lexLe_refl (as : List Char) : lexLe as as = true := by
  induction as with
  | nil => rfl
  | cons a as ih => rw [lexLe_cons]; exact Or.inr ⟨rfl, ih⟩

theorem lexLe_total (as bs : List Char) : lexLe as bs = true ∨ lexLe bs as = true := by
  induction as generalizing bs with
  | nil => exact Or.inl rfl
  | cons a as ih =>
    cases bs with
    | nil => exact Or.inr rfl
    | cons b bs =>
      rw [lexLe_cons, lexLe_cons]
      rcases Nat.lt_trichotomy a.toNat b.toNat with h | h | h
      · exact Or.inl (Or.inl h)
      · rcases ih bs with h2 | h2
        · exact Or.inl (Or.inr ⟨h, h2⟩)
        · exact Or.inr (Or.inr ⟨h.symm, h2⟩)
      · exact Or.inr (Or.inl h)

theorem lexLe_trans : ∀ {as bs cs : List Char},
    lexLe as bs = true → lexLe bs cs = true → lexLe as cs = true
  | [], _, _, _, _ => rfl
  | _ :: _, [], _, h1, _ => by simp [lexLe] at h1
  | _ :: _, _ :: _, [], _, h2 => by simp [lexLe] at h2
  | a :: as, b :: bs, c :: cs, h1, h2 => by
    rw [lexLe_cons] at h1 h2 ⊢
    rcases h1 with h1 | ⟨e1, r1⟩
    · rcases h2 with h2 | ⟨e2, r2⟩
      · exact Or.inl (by omega)
      · exact Or.inl (by omega)
    · rcases h2 with h2 | ⟨e2, r2⟩
      · exact Or.inl (by omega)
      · exact Or.inr ⟨e1.trans e2, lexLe_trans r1 r2⟩

theorem lexLe_antisymm : ∀ {as bs : List Char},
    lexLe as bs = true → lexLe bs as = true → as = bs
  | [], [], _, _ => rfl
  | [], _ :: _, _, h2 => by simp [lexLe] at h2
  | _ :: _, [], h1, _ => by simp [lexLe] at h1
  | a :: as, b :: bs, h1, h2 => by
    rw [lexLe_cons] at h1 h2
    rcases h1 with h1 | ⟨e1, r1⟩
    · rcases h2 with h2 | ⟨e2, r2⟩
      · omega
      · omega
    · rcases h2 with h2 | ⟨e2, r2⟩
      · omega
      · rw [char_eq_of_toNat_eq e1, lexLe_antisymm r1 r2]

instance : IsTotal String strLe :=
  ⟨fun a b => lexLe_total a.data b.data⟩

instance : IsTrans String strLe :=
  ⟨fun _ _ _ h1 h2 => lexLe_trans h1 h2⟩

instance : IsRefl String strLe :=
  ⟨fun a => lexLe_refl a.data⟩

instance : IsAntisymm String strLe :=
  ⟨fun a b h1 h2 => congrArg String.mk (lexLe_antisymm h1 h2)⟩

/-! Helper lemmas about the association-list operations. -/

theorem alookup_eq_of_perm {α : Type} {m₁ m₂ : List (String × α)}
    (h : List.Perm m₁ m₂) :
    (m₁.map Prod.fst).Nodup → ∀ k, alookup m₁ k = alookup m₂ k := by
  induction h with
  | nil => intro _ _; rfl
  | cons x h ih =>
    intro hn k
    simp only [List.map_cons, List.nodup_cons] at hn
    simp only [alookup]
    split
    · rfl
    · exact ih hn.2 k
  | swap x y l =>
    intro hn k
    have hne : y.1 ≠ x.1 := by
      simp only [List.map_cons, List.nodup_cons, List.mem_cons] at hn
      exact fun h => hn.1 (Or.inl h)
    simp only [alookup]
    by_cases h1 : y.1 = k <;> by_cases h2 : x.1 = k <;> simp [h1, h2]
    exact absurd (h1.trans h2.symm) hne
  | trans h1 h2 ih1 ih2 =>
    intro hn k
    rw [ih1 hn k, ih2 (((h1.map Prod.fst).nodup_iff).mp hn) k]

theorem mem_keys_insertAssoc {m : List (String × Album)} {k k' : String} {v : Album}
    (h : k' ∈ (insertAssoc m k v).map Prod.fst) : k' ∈ m.map Prod.fst ∨ k' = k := by
  unfold insertAssoc at h
  split at h
  · rw [List.map_map] at h
    rcases List.mem_map.mp h with ⟨e, he, hk⟩
    by_cases hek : e.1 = k
    · right
      rw [← hk]
      simp [Function.comp, hek]
    · left
      rw [← hk]
      simp only [Function.comp, if_neg hek]
      exact List.mem_map_of_mem Prod.fst he
  · rw [List.map_append] at h
    rcases List.mem_append.mp h with h | h
    · exact Or.inl h
    · right
      simpa using h

/-! Helper lemmas about the `Library::from_dir` loop. -/

theorem fromDirGo_isSome (root : String) :
    ∀ (dirs : List (String × List FileEntry)) (acc : List (String × Album)),
      (∀ d ∈ dirs, (keyRel root d.1).isSome) → (fromDirGo root acc dirs).isSome
  | [], _, _ => by simp [fromDirGo]
  | (p, fs) :: rest, acc, h => by
    have hp : (keyRel root p).isSome := h (p, fs) (by simp)
    have hrest : ∀ d ∈ rest, (keyRel root d.1).isSome :=
      fun d hd => h d (List.mem_cons_of_mem _ hd)
    simp only [fromDirGo]
    cases hkr : keyRel root p with
    | none => rw [hkr] at hp; simp at hp
    | some key =>
      cases ha : Album.from_path p fs with
      | ok album => exact fromDirGo_isSome root rest _ hrest
      | error e => exact fromDirGo_isSome root rest _ hrest

theorem fromDirGo_keys (root : String) :
    ∀ (dirs : List (String × List FileEntry)) (acc m : List (String × Album)),
      fromDirGo root acc dirs = some m →
      ∀ k, k ∈ m.map Prod.fst →
        k ∈ acc.map Prod.fst ∨
          ∃ d ∈ dirs, keyRel root d.1 = some k ∧
            ∃ a, Album.from_path d.1 d.2 = Except.ok a ∧ 0 < a.len
  | [], acc, m, hm, k, hk => by
    simp only [fromDirGo, Option.some.injEq] at hm
    exact Or.inl (hm ▸ hk)
  | (p, fs) :: rest, acc, m, hm, k, hk => by
    simp only [fromDirGo] at hm
    cases hkr : keyRel root p with
    | none => rw [hkr] at hm; exact absurd hm (by simp)
    | some key =>
      rw [hkr] at hm
      dsimp only at hm
      cases ha : Album.from_path p fs with
      | ok album =>
        rw [ha] at hm
        dsimp only at hm
        by_cases hl : 0 < album.len
        · rw [if_pos hl] at hm
          rcases fromDirGo_keys root rest _ m hm k hk with hin | ⟨d, hd, hrest⟩
          · rcases mem_keys_insertAssoc hin with hin | rfl
            · exact Or.inl hin
            · exact Or.inr ⟨(p, fs), List.mem_cons_self _ _, hkr, album, ha, hl⟩
          · exact Or.inr ⟨d, List.mem_cons_of_mem _ hd, hrest⟩
        · rw [if_neg hl] at hm
          rcases fromDirGo_keys root rest _ m hm k hk with hin | ⟨d, hd, hrest⟩
          · exact Or.inl hin
          · exact Or.inr ⟨d, List.mem_cons_of_mem _ hd, hrest⟩
      | error e =>
        rw [ha] at hm
        dsimp only at hm
        rcases fromDirGo_keys root rest _ m hm k hk with hin | ⟨d, hd, hrest⟩
        · exact Or.inl hin
        · exact Or.inr ⟨d, List.mem_cons_of_mem _ hd, hrest⟩

theorem stripPrefixL_append {α : Type} [DecidableEq α] (xs ys : List α) :
    stripPrefixL xs (xs ++ ys) = some ys := by
  induction xs with
  | nil => rfl
  | cons x xs ih => simp [stripPrefixL, ih]

/-! Per-tag extraction lemmas. -/

theorem singleTag_spec (c : Comments) (name : String)
    (hmem : name ∈ singleValuedKeys) :
    SingleTagOk c name (getStr c name) (discardedOf c) := by
  constructor
  · intro v vs hl
    constructor
    · simp [getStr, hl]
    · simp only [discardedOf, List.mem_filter, hmem, true_and, hl,
        List.length_cons, decide_eq_true_eq]
      constructor
      · intro h
        exact List.ne_nil_of_length_pos (by omega)
      · intro h
        have := List.length_pos.mpr h
        omega
  · intro hn
    constructor
    · simp [getStr, hn]
    · simp [discardedOf, List.mem_filter, hn]

theorem numTag_spec (c : Comments) (name : String)
    (hmem : name ∈ singleValuedKeys) :
    NumTagOk c name (getNum c name) (discardedOf c) := by
  have hs := singleTag_spec c name hmem
  constructor
  · intro v vs hl
    refine ⟨?_, ((hs.1 v vs hl).2)⟩
    simp [getNum, getStr, hl]
  · intro hn
    refine ⟨?_, (hs.2 hn).2⟩
    simp [getNum, getStr, hn]

theorem multiTag_spec (c : Comments) (name : String)
    (hmem : name ∉ singleValuedKeys) :
    MultiTagOk c name (getStrs c name) (discardedOf c) := by
  refine ⟨?_, ?_, ?_⟩
  · intro vs hl
    simp [getStrs, hl]
  · intro hn
    simp [getStrs, hn]
  · simp only [discardedOf, List.mem_filter]
    intro h
    exact absurd h.1 hmem

/-! The claims. -/

/-- C1: when extraction of a FLAC file with a present comment block
succeeds, every recognised single-valued tag (string-typed and numeric)
stores its first value in the corresponding field and is recorded in
`discarded` exactly when more than one value is stored under it, while every
multi-valued tag (ARTIST, COMPOSER, GENRE) stores all its values in stored
order (empty when absent) and is never recorded in `discarded`. -/
theorem c1_tag_reconciliation (path : String) (c : Comments)
    (hwf : ∀ e ∈ c, e.2 ≠ []) :
    Track.from_flac path (Except.ok (some c)) = Except.ok (Track.of_comments path c) ∧
    ∀ t, Track.from_flac path (Except.ok (some c)) = Except.ok t →
      SingleTagOk c "TITLE" t.title t.discarded ∧
      SingleTagOk c "ALBUM" t.album t.discarded ∧
      SingleTagOk c "ALBUMARTIST" t.album_artist t.discarded ∧
      SingleTagOk c "CONTACT" t.www t.discarded ∧
      SingleTagOk c "COPYRIGHT" t.copyright t.discarded ∧
      SingleTagOk c "ENCODED-BY" t.encoded_by t.discarded ∧
      SingleTagOk c "DESCRIPTION" t.comment t.discarded ∧
      NumTagOk c "TRACKNUMBER" t.track_number t.discarded ∧
      NumTagOk c "TRACKTOTAL" t.track_total t.discarded ∧
      NumTagOk c "DISCNUMBER" t.disc_number t.discarded ∧
      NumTagOk c "DISCTOTAL" t.disc_total t.discarded ∧
      NumTagOk c "DATE" t.date t.discarded ∧
      MultiTagOk c "ARTIST" t.artist t.discarded ∧
      MultiTagOk c "COMPOSER" t.composer t.discarded ∧
      MultiTagOk c "GENRE" t.genre t.discarded := by
  refine ⟨rfl, ?_⟩
  intro t h
  simp only [Track.from_flac, Except.ok.injEq] at h
  subst h
  exact ⟨singleTag_spec c "TITLE" (by decide),
    singleTag_spec c "ALBUM" (by decide),
    singleTag_spec c "ALBUMARTIST" (by decide),
    singleTag_spec c "CONTACT" (by decide),
    singleTag_spec c "COPYRIGHT" (by decide),
    singleTag_spec c "ENCODED-BY" (by decide),
    singleTag_spec c "DESCRIPTION" (by decide),
    numTag_spec c "TRACKNUMBER" (by decide),
    numTag_spec c "TRACKTOTAL" (by decide),
    numTag_spec c "DISCNUMBER" (by decide),
    numTag_spec c "DISCTOTAL" (by decide),
    numTag_spec c "DATE" (by decide),
    multiTag_spec c "ARTIST" (by decide),
    multiTag_spec c "COMPOSER" (by decide),
    multiTag_spec c "GENRE" (by decide)⟩

/-- Witness for C1 at a concrete comment block: two TITLE values and two
ARTIST values.  The first TITLE value is stored and TITLE is discarded;
both ARTIST values are stored and ARTIST is not discarded. -/
theorem c1_tag_reconciliation_witness :
    (Track.of_comments "a.flac" [("TITLE", ["A", "B"]), ("ARTIST", ["X", "Y"])]).title
        = some "A" ∧
    (Track.of_comments "a.flac" [("TITLE", ["A", "B"]), ("ARTIST", ["X", "Y"])]).artist
        = ["X", "Y"] ∧
    (Track.of_comments "a.flac" [("TITLE", ["A", "B"]), ("ARTIST", ["X", "Y"])]).discarded
        = ["TITLE"] ∧
    ∀ t, Track.from_flac "a.flac"
        (Except.ok (some [("TITLE", ["A", "B"]), ("ARTIST", ["X", "Y"])])) = Except.ok t →
      SingleTagOk [("TITLE", ["A", "B"]), ("ARTIST", ["X", "Y"])] "TITLE"
        t.title t.discarded := by
  refine ⟨by decide, by decide, by decide, ?_⟩
  intro t ht
  exact ((c1_tag_reconciliation "a.flac"
    [("TITLE", ["A", "B"]), ("ARTIST", ["X", "Y"])] (by decide)).2 t ht).1

/-- C3: extraction of a path that classifies as no codec fails with
`InvalidFormat` carrying the path; extraction of a path that classifies as a
non-FLAC codec (exactly OPUS, M4A or MP3 — the `Codec` type is closed) fails
with `UnsupportedCodec` carrying that codec; in both cases no `Track` is
returned. -/
theorem c3_unsupported_and_invalid (path : String)
    (read : Except MetaflacError (Option Comments)) :
    (Codec.from_path path = none →
      Track.from_file path read = Except.error (LibraryError.InvalidFormat path)) ∧
    (∀ c, Codec.from_path path = some c → c ≠ Codec.FLAC →
      Track.from_file path read = Except.error (LibraryError.UnsupportedCodec c)) ∧
    (∀ c : Codec, c = Codec.FLAC ∨ c = Codec.OPUS ∨ c = Codec.M4A ∨ c = Codec.MP3) := by
  refine ⟨?_, ?_, ?_⟩
  · intro h
    simp [Track.from_file, h]
  · intro c hc hne
    cases c with
    | FLAC => exact absurd rfl hne
    | OPUS => simp [Track.from_file, hc]
    | M4A => simp [Track.from_file, hc]
    | MP3 => simp [Track.from_file, hc]
  · intro c
    cases c with
    | FLAC => exact Or.inl rfl
    | OPUS => exact Or.inr (Or.inl rfl)
    | M4A => exact Or.inr (Or.inr (Or.inl rfl))
    | MP3 => exact Or.inr (Or.inr (Or.inr rfl))

/-- Witness for C3: a `.txt` path fails with `InvalidFormat`, a `.mp3` path
fails with `UnsupportedCodec MP3`. -/
theorem c3_unsupported_and_invalid_witness :
    Track.from_file "x.txt" (Except.ok none)
        = Except.error (LibraryError.InvalidFormat "x.txt") ∧
    Track.from_file "x.mp3" (Except.ok none)
        = Except.error (LibraryError.UnsupportedCodec Codec.MP3) :=
  ⟨(c3_unsupported_and_invalid "x.txt" (Except.ok none)).1 (by decide),
   (c3_unsupported_and_invalid "x.mp3" (Except.ok none)).2.1 Codec.MP3 (by decide)
     (by decide)⟩

/-- C4, counterexample: for a FLAC file whose container carries no comment
block, extraction succeeds but the returned Track does not record the source
path or the resolved codec — it is `Track::new`, with both unset.  This
refutes the claim that every successful extraction records them. -/
theorem c4_counterexample :
    Track.from_file "a.flac" (Except.ok none) = Except.ok Track.new ∧
    Track.new.file = none ∧
    Track.new.file_codec = none ∧
    Track.new.file ≠ some "a.flac" := by
  decide

/-- C4 as amended: on every successful extraction, `modified` is false; when
the container had a comment block the Track records the source path, the
FLAC codec and the accumulated `discarded` list; when the container had no
comment block the result is `Track::new`, whose path and codec are unset and
whose `discarded` list is empty. -/
theorem c4_success_metadata (path : String)
    (read : Except MetaflacError (Option Comments)) :
    ∀ t, Track.from_file path read = Except.ok t →
      t.modified = false ∧
      (∀ c, read = Except.ok (some c) →
        t.file = some path ∧ t.file_codec = some Codec.FLAC ∧
          t.discarded = discardedOf c) ∧
      (read = Except.ok none → t = Track.new) := by
  intro t h
  simp only [Track.from_file] at h
  cases hcl : Codec.from_path path with
  | none => rw [hcl] at h; exact absurd h (by simp)
  | some codec =>
    rw [hcl] at h
    cases codec with
    | FLAC =>
      dsimp only at h
      cases read with
      | error e => exact absurd h (by simp [Track.from_flac])
      | ok o =>
        cases o with
        | none =>
          simp only [Track.from_flac, Except.ok.injEq] at h
          subst h
          exact ⟨rfl, fun c hc => by simp at hc, fun _ => rfl⟩
        | some c =>
          simp only [Track.from_flac, Except.ok.injEq] at h
          subst h
          refine ⟨rfl, ?_, ?_⟩
          · intro c' hc'
            simp only [Except.ok.injEq, Option.some.injEq] at hc'
            subst hc'
            exact ⟨rfl, rfl, rfl⟩
          · intro hc
            simp at hc
    | OPUS => exact absurd h (by simp)
    | M4A => exact absurd h (by simp)
    | MP3 => exact absurd h (by simp)

/-- Witness for C4 as amended, at a FLAC file with a one-tag comment
block. -/
theorem c4_success_metadata_witness :
    (Track.of_comments "b.flac" [("TITLE", ["T"])]).file = some "b.flac" ∧
    (Track.of_comments "b.flac" [("TITLE", ["T"])]).file_codec = some Codec.FLAC ∧
    (Track.of_comments "b.flac" [("TITLE", ["T"])]).modified = false := by
  have h := c4_success_metadata "b.flac" (Except.ok (some [("TITLE", ["T"])]))
    (Track.of_comments "b.flac" [("TITLE", ["T"])]) (by decide)
  rcases h.2.1 [("TITLE", ["T"])] rfl with ⟨h1, h2, _⟩
  exact ⟨h1, h2, h.1⟩

/-- C5: for a FLAC-classified path whose container has no comment block,
extraction succeeds with `Track::new`, which satisfies `is_empty`; and
`is_empty` is independent of `modified` and `discarded`. -/
theorem c5_no_comment_block (path : String)
    (hcl : Codec.from_path path = some Codec.FLAC) :
    Track.from_file path (Except.ok none) = Except.ok Track.new ∧
    Track.new.is_empty = true ∧
    (∀ t, Track.from_file path (Except.ok none) = Except.ok t → t.is_empty = true) ∧
    (∀ t : Track, ∀ m d,
      Track.is_empty { t with modified := m, discarded := d } = t.is_empty) := by
  have hok : Track.from_file path (Except.ok none) = Except.ok Track.new := by
    simp [Track.from_file, hcl, Track.from_flac]
  refine ⟨hok, by decide, ?_, ?_⟩
  · intro t ht
    rw [hok] at ht
    simp only [Except.ok.injEq] at ht
    subst ht
    decide
  · intro t m d
    rfl

/-- Witness for C5 at the path "a.flac". -/
theorem c5_no_comment_block_witness :
    Track.from_file "a.flac" (Except.ok none) = Except.ok Track.new ∧
    Track.new.is_empty = true :=
  ⟨(c5_no_comment_block "a.flac" (by decide)).1,
   (c5_no_comment_block "a.flac" (by decide)).2.1⟩

/-- C9: for every FLAC comment block, each numeric tag (TRACKNUMBER,
TRACKTOTAL, DISCNUMBER, DISCTOTAL, DATE) takes its first stored value parsed
as a non-negative integer, an unparsable value leaves the field absent, and
extraction succeeds regardless. -/
theorem c9_numeric_parsing (path : String) (c : Comments)
    (hwf : ∀ e ∈ c, e.2 ≠ []) :
    (Track.from_flac path (Except.ok (some c))).isOk = true ∧
    NumTagOk c "TRACKNUMBER" (Track.of_comments path c).track_number
      (Track.of_comments path c).discarded ∧
    NumTagOk c "TRACKTOTAL" (Track.of_comments path c).track_total
      (Track.of_comments path c).discarded ∧
    NumTagOk c "DISCNUMBER" (Track.of_comments path c).disc_number
      (Track.of_comments path c).discarded ∧
    NumTagOk c "DISCTOTAL" (Track.of_comments path c).disc_total
      (Track.of_comments path c).discarded ∧
    NumTagOk c "DATE" (Track.of_comments path c).date
      (Track.of_comments path c).discarded :=
  ⟨rfl,
   numTag_spec c "TRACKNUMBER" (by decide),
   numTag_spec c "TRACKTOTAL" (by decide),
   numTag_spec c "DISCNUMBER" (by decide),
   numTag_spec c "DISCTOTAL" (by decide),
   numTag_spec c "DATE" (by decide)⟩

/-- Witness for C9 at a concrete comment block: a malformed TRACKNUMBER
leaves the field absent while extraction still succeeds, and a well-formed
DATE parses. -/
theorem c9_numeric_parsing_witness :
    (Track.of_comments "a.flac" [("TRACKNUMBER", ["abc"]), ("DATE", ["1999"])]).track_number
        = none ∧
    (Track.of_comments "a.flac" [("TRACKNUMBER", ["abc"]), ("DATE", ["1999"])]).date
        = some 1999 ∧
    (Track.from_flac "a.flac"
        (Except.ok (some [("TRACKNUMBER", ["abc"]), ("DATE", ["1999"])]))).isOk = true :=
  ⟨by decide, by decide,
   (c9_numeric_parsing "a.flac" [("TRACKNUMBER", ["abc"]), ("DATE", ["1999"])]
     (by decide)).1⟩

/-- C10: tracks produced by `Track::new`, `Track::from_file` and
`Track::from_flac` all carry `modified = false`, and `is_modified` is
exactly the `modified` flag — the crate exposes no operation that sets
it. -/
theorem c10_never_modified :
    Track.new.is_modified = false ∧
    (∀ path read t, Track.from_flac path read = Except.ok t →
      t.is_modified = false) ∧
    (∀ path read t, Track.from_file path read = Except.ok t →
      t.is_modified = false) ∧
    (∀ t : Track, t.is_modified = t.modified) := by
  have hflac : ∀ path read t, Track.from_flac path read = Except.ok t →
      t.is_modified = false := by
    intro path read t h
    cases read with
    | error e => exact absurd h (by simp [Track.from_flac])
    | ok o =>
      cases o with
      | none =>
        simp only [Track.from_flac, Except.ok.injEq] at h
        subst h
        rfl
      | some c =>
        simp only [Track.from_flac, Except.ok.injEq] at h
        subst h
        rfl
  refine ⟨rfl, hflac, ?_, fun t => rfl⟩
  intro path read t h
  simp only [Track.from_file] at h
  cases hcl : Codec.from_path path with
  | none => rw [hcl] at h; exact absurd h (by simp)
  | some codec =>
    rw [hcl] at h
    cases codec with
    | FLAC => exact hflac path read t h
    | OPUS => exact absurd h (by simp)
    | M4A => exact absurd h (by simp)
    | MP3 => exact absurd h (by simp)

/-- C2: building the library never aborts — for every rooted walk the build
returns `Ok`; every key present in the resulting map comes from a directory
whose album scan succeeded with at least one track (so a directory whose
scan failed with an extraction error is omitted while the rest of the walk
is still processed); and a walk yielding no non-empty album produces an
`Ok` library with an empty map, not an error. -/
theorem c2_build_never_aborts (root : String) (dirs : List (String × List FileEntry))
    (hroot : ∀ d ∈ dirs, (keyRel root d.1).isSome) :
    (Library.from_dir root dirs).isSome = true ∧
    (∀ e, Library.from_dir root dirs = some e → e.isOk = true) ∧
    (∀ lib, Library.from_dir root dirs = some (Except.ok lib) →
      (∀ k, k ∈ lib.albums.map Prod.fst →
        ∃ d ∈ dirs, keyRel root d.1 = some k ∧
          ∃ a, Album.from_path d.1 d.2 = Except.ok a ∧ 0 < a.len) ∧
      ((∀ d ∈ dirs, ∀ a, Album.from_path d.1 d.2 = Except.ok a → a.len = 0) →
        lib.albums = [])) := by
  obtain ⟨m, hm⟩ := Option.isSome_iff_exists.mp (fromDirGo_isSome root dirs [] hroot)
  have hkeys : ∀ k, k ∈ m.map Prod.fst →
      ∃ d ∈ dirs, keyRel root d.1 = some k ∧
        ∃ a, Album.from_path d.1 d.2 = Except.ok a ∧ 0 < a.len := by
    intro k hk
    rcases fromDirGo_keys root dirs [] m hm k hk with hin | h
    · simp at hin
    · exact h
  refine ⟨?_, ?_, ?_⟩
  · simp [Library.from_dir, hm]
  · intro e he
    simp only [Library.from_dir, hm, Option.map_some', Option.some.injEq] at he
    rw [← he]
    rfl
  · intro lib hlib
    simp only [Library.from_dir, hm, Option.map_some', Option.some.injEq,
      Except.ok.injEq] at hlib
    have halb : lib.albums = m := by rw [← hlib]
    constructor
    · intro k hk
      exact hkeys k (halb ▸ hk)
    · intro hall
      cases hal : lib.albums with
      | nil => rfl
      | cons x xs =>
        exfalso
        have hx : x.1 ∈ m.map Prod.fst := by
          rw [← halb, hal]
          simp
        rcases hkeys x.1 hx with ⟨d, hd, _, a, ha, hlen⟩
        have := hall d hd a ha
        omega

/-- Witness for C2: a walk with one album directory whose only file is a
corrupt FLAC and one with a readable FLAC; the build succeeds and keeps
exactly the readable album. -/
theorem c2_build_never_aborts_witness :
    (Library.from_dir "r"
      [("r/bad", [{ name := "x.flac", read := Except.error { msg := "broken" } }]),
       ("r/good", [{ name := "y.flac", read := Except.ok (some [("TITLE", ["t"])]) }])]).isSome
      = true ∧
    (Library.from_dir "r"
      [("r/bad", [{ name := "x.flac", read := Except.error { msg := "broken" } }]),
       ("r/good", [{ name := "y.flac", read := Except.ok (some [("TITLE", ["t"])]) }])]).map
      (Except.map Library.keys) = some (Except.ok ["good"]) :=
  ⟨(c2_build_never_aborts "r"
      [("r/bad", [{ name := "x.flac", read := Except.error { msg := "broken" } }]),
       ("r/good", [{ name := "y.flac", read := Except.ok (some [("TITLE", ["t"])]) }])]
      (by decide)).1,
   by decide⟩

/-- C6: `keys()` is always sorted ascending in the string order and is a
permutation of the map's keys, hence independent of the unordered map's
iteration order (two libraries whose maps are permutations of each other
enumerate identical keys and albums); the key of the root directory is the
literal "." and the key of a subdirectory is its path relative to the root;
the concrete build over albums at "B/sub", "A" and the root, walked in a
scrambled order, enumerates [".", "A", "B/sub"]. -/
theorem c6_sorted_enumeration (lib lib' : Library)
    (hperm : List.Perm lib.albums lib'.albums)
    (hnd : (lib.albums.map Prod.fst).Nodup) :
    List.Sorted strLe lib.keys ∧
    List.Perm lib.keys (lib.albums.map Prod.fst) ∧
    lib.keys = lib'.keys ∧
    lib.albumsOrdered = lib'.albumsOrdered ∧
    (∀ root : String, keyRel root root = some ".") ∧
    (∀ root q : String, keyRel root (root ++ "/" ++ q) = some q) ∧
    (Library.from_dir "r"
      [("r/B/sub", [{ name := "t.flac", read := Except.ok (some [("TITLE", ["x"])]) }]),
       ("r/A", [{ name := "t.flac", read := Except.ok (some [("TITLE", ["x"])]) }]),
       ("r", [{ name := "t.flac", read := Except.ok (some [("TITLE", ["x"])]) }])]).map
      (Except.map Library.keys) = some (Except.ok [".", "A", "B/sub"]) := by
  have hkeq : lib.keys = lib'.keys :=
    List.eq_of_perm_of_sorted
      ((List.perm_insertionSort strLe _).trans
        ((hperm.map Prod.fst).trans (List.perm_insertionSort strLe _).symm))
      (List.sorted_insertionSort strLe _) (List.sorted_insertionSort strLe _)
  refine ⟨List.sorted_insertionSort strLe _, List.perm_insertionSort strLe _,
    hkeq, ?_, ?_, ?_, by decide⟩
  · have hl : (fun k => alookup lib.albums k) = fun k => alookup lib'.albums k :=
      funext (alookup_eq_of_perm hperm hnd)
    rw [Library.albumsOrdered, Library.albumsOrdered, hkeq, hl]
  · intro root
    simp [keyRel]
  · intro root q
    have hne : root ++ "/" ++ q ≠ root := by
      intro h
      have hlen := congrArg String.length h
      rw [String.length_append, String.length_append] at hlen
      have h1 : ("/" : String).length = 1 := rfl
      omega
    simp only [keyRel, if_neg hne]
    rw [show (root ++ "/" ++ q).data = (root ++ "/").data ++ q.data from
      String.data_append _ _]
    rw [stripPrefixL_append]
    rfl

/-- Witness for C6: two one-element-swapped maps enumerate the same keys,
and the relative-key facts at concrete strings. -/
theorem c6_sorted_enumeration_witness :
    Library.keys { root := "r", albums := [("b", Album.new "d1"), ("a", Album.new "d2")] } =
      Library.keys { root := "r", albums := [("a", Album.new "d2"), ("b", Album.new "d1")] } ∧
    keyRel "r" "r" = some "." ∧
    keyRel "r" ("r" ++ "/" ++ "A") = some "A" :=
  ⟨(c6_sorted_enumeration
      { root := "r", albums := [("b", Album.new "d1"), ("a", Album.new "d2")] }
      { root := "r", albums := [("a", Album.new "d2"), ("b", Album.new "d1")] }
      (by decide) (by decide)).2.2.1,
   (c6_sorted_enumeration
      { root := "r", albums := [("b", Album.new "d1"), ("a", Album.new "d2")] }
      { root := "r", albums := [("a", Album.new "d2"), ("b", Album.new "d1")] }
      (by decide) (by decide)).2.2.2.2.1 "r",
   (c6_sorted_enumeration
      { root := "r", albums := [("b", Album.new "d1"), ("a", Album.new "d2")] }
      { root := "r", albums := [("a", Album.new "d2"), ("b", Album.new "d1")] }
      (by decide) (by decide)).2.2.2.2.2.1 "r" "A"⟩

/-- C7: `genres()` is sorted ascending, duplicate-free, contains exactly the
genres of the contained tracks (case-sensitive equality), and is invariant
under permutation of the tracks; the concrete album contributing ["Jazz"],
["Rock", "Jazz"], [] yields ["Jazz", "Rock"]. -/
theorem c7_genre_aggregation (a a' : Album) (hperm : List.Perm a.tracks a'.tracks) :
    List.Sorted strLe a.genres ∧
    a.genres.Nodup ∧
    (∀ g, g ∈ a.genres ↔ ∃ t ∈ a.tracks, g ∈ t.genre) ∧
    a.genres = a'.genres ∧
    Album.genres { dir := "d", tracks :=
      [{ Track.new with genre := ["Jazz"] },
       { Track.new with genre := ["Rock", "Jazz"] },
       { Track.new with genre := [] }] } = ["Jazz", "Rock"] := by
  refine ⟨List.sorted_insertionSort strLe _, ?_, ?_, ?_, by decide⟩
  · exact ((List.perm_insertionSort strLe _).nodup_iff).mpr
      (List.nodup_dedup (a.tracks.flatMap Track.genresOf))
  · intro g
    rw [Album.genres, List.mem_insertionSort strLe, List.mem_dedup, List.mem_flatMap]
    exact Iff.rfl
  · exact List.eq_of_perm_of_sorted
      ((List.perm_insertionSort strLe _).trans
        (((hperm.flatMap_right Track.genresOf).dedup).trans
          (List.perm_insertionSort strLe _).symm))
      (List.sorted_insertionSort strLe _) (List.sorted_insertionSort strLe _)

/-- Witness for C7: two permuted track lists aggregate to the same genre
list, and the concrete aggregation example. -/
theorem c7_genre_aggregation_witness :
    Album.genres { dir := "d", tracks :=
      [{ Track.new with genre := ["Rock"] }, { Track.new with genre := ["Jazz"] }] } =
    Album.genres { dir := "d", tracks :=
      [{ Track.new with genre := ["Jazz"] }, { Track.new with genre := ["Rock"] }] } ∧
    Album.genres { dir := "d", tracks :=
      [{ Track.new with genre := ["Jazz"] },
       { Track.new with genre := ["Rock", "Jazz"] },
       { Track.new with genre := [] }] } = ["Jazz", "Rock"] :=
  ⟨(c7_genre_aggregation
      { dir := "d", tracks :=
        [{ Track.new with genre := ["Rock"] }, { Track.new with genre := ["Jazz"] }] }
      { dir := "d", tracks :=
        [{ Track.new with genre := ["Jazz"] }, { Track.new with genre := ["Rock"] }] }
      (by decide)).2.2.2.1,
   (c7_genre_aggregation
      { dir := "d", tracks :=
        [{ Track.new with genre := ["Rock"] }, { Track.new with genre := ["Jazz"] }] }
      { dir := "d", tracks :=
        [{ Track.new with genre := ["Jazz"] }, { Track.new with genre := ["Rock"] }] }
      (by decide)).2.2.2.2⟩

/-- C8: classification is a pure function of the lower-cased extension —
paths with equal lower-cased extensions classify identically; each table
entry (flac, opus, m4a, aac, mp3) yields the corresponding codec; any other
or missing extension yields no codec; and the concrete facts
classify("x.FLAC") = classify("x.flac") = some FLAC, classify("x.txt") =
none. -/
theorem c8_classifier (p₁ p₂ : String)
    (hext : (extOf p₁).map lowerChars = (extOf p₂).map lowerChars) :
    Codec.from_path p₁ = Codec.from_path p₂ ∧
    (∀ p : String, (extOf p).map lowerChars = some "flac".data →
      Codec.from_path p = some Codec.FLAC) ∧
    (∀ p : String, (extOf p).map lowerChars = some "opus".data →
      Codec.from_path p = some Codec.OPUS) ∧
    (∀ p : String, (extOf p).map lowerChars = some "m4a".data →
      Codec.from_path p = some Codec.M4A) ∧
    (∀ p : String, (extOf p).map lowerChars = some "aac".data →
      Codec.from_path p = some Codec.M4A) ∧
    (∀ p : String, (extOf p).map lowerChars = some "mp3".data →
      Codec.from_path p = some Codec.MP3) ∧
    (∀ p : String, ∀ s : List Char, (extOf p).map lowerChars = some s →
      s ∉ ["flac".data, "opus".data, "m4a".data, "aac".data, "mp3".data] →
      Codec.from_path p = none) ∧
    (∀ p : String, extOf p = none → Codec.from_path p = none) ∧
    Codec.from_path "x.FLAC" = some Codec.FLAC ∧
    Codec.from_path "x.flac" = some Codec.FLAC ∧
    Codec.from_path "x.txt" = none := by
  refine ⟨?_, ?_, ?_, ?_, ?_, ?_, ?_, ?_, by decide, by decide, by decide⟩
  · simp only [Codec.from_path]
    rw [hext]
  · intro p hp
    simp only [Codec.from_path]
    rw [hp]
    decide
  · intro p hp
    simp only [Codec.from_path]
    rw [hp]
    decide
  · intro p hp
    simp only [Codec.from_path]
    rw [hp]
    decide
  · intro p hp
    simp only [Codec.from_path]
    rw [hp]
    decide
  · intro p hp
    simp only [Codec.from_path]
    rw [hp]
    decide
  · intro p s hp hs
    simp only [List.mem_cons, List.not_mem_nil, or_false, not_or] at hs
    simp only [Codec.from_path]
    rw [hp]
    simp [Option.bind, hs.1, hs.2.1, hs.2.2.1, hs.2.2.2.1, hs.2.2.2.2]
  · intro p hp
    simp [Codec.from_path, hp]

/-- Witness for C8: purity applied at "x.FLAC" and "x.flac", whose
lower-cased extensions agree. -/
theorem c8_classifier_witness :
    Codec.from_path "x.FLAC" = Codec.from_path "x.flac" :=
  (c8_classifier "x.FLAC" "x.flac" (by decide)).1

/-- Witness for C10 at concrete inputs. -/
theorem c10_never_modified_witness :
    Track.new.is_modified = false ∧
    (Track.of_comments "a.flac" [("TITLE", ["T"])]).is_modified = false :=
  ⟨(c10_never_modified).1,
   (c10_never_modified).2.1 "a.flac" (Except.ok (some [("TITLE", ["T"])]))
     (Track.of_comments "a.flac" [("TITLE", ["T"])]) (by decide)⟩

end Vicuno
